import Mathlib

/-!
Shallow embedding of the FinChat backend server (src/server/index.js) together
with the client-side message operations it is driven by
(src/services/chatService.ts).  Messages are JSON objects persisted whole-file
in messages.json; the WebSocket handler re-reads the file, patches one array
element and rewrites the file.  Strings are compared the way JavaScript
compares them (lexicographically, code unit by code unit), so the embedding
carries its own executable comparison and lowercasing helpers on the
underlying character lists.
-/

namespace FinChat

/-- JavaScript string comparison a < b, lexicographic on code units. -/
def strLtB : List Char → List Char → Bool
  | [], [] => false
  | [], _ :: _ => true
  | _ :: _, [] => false
  | a :: as, b :: bs =>
    if a.toNat < b.toNat then true
    else if b.toNat < a.toNat then false
    else strLtB as bs

/-- JavaScript < on strings. -/
def jsLt (a b : String) : Bool := strLtB a.data b.data

/-- JavaScript toLowerCase restricted to the ASCII fragment used by the code. -/
def lowerStr (s : String) : String := String.mk (s.data.map Char.toLower)

/-- Prefix test on character lists. -/
def isPrefLB : List Char → List Char → Bool
  | [], _ => true
  | _ :: _, [] => false
  | a :: as, b :: bs => decide (a = b) && isPrefLB as bs

/-- Contiguous-sublist test, the list-level content of String.includes. -/
def isSubLB : List Char → List Char → Bool
  | [], _ => true
  | _ :: _, [] => false
  | a :: as, b :: bs => (decide (a = b) && isPrefLB as bs) || isSubLB (a :: as) bs

/-- JavaScript hay.includes(sub). -/
def jsIncludes (hay sub : String) : Bool := isSubLB sub.data hay.data

/-- A stored chat message, the JSON record kept in messages.json.  A missing or
falsy channelId or timestamp key is encoded as the empty string, a missing
optional key as none; reactions is the emoji-keyed object, in key insertion
order, each value the array of user ids. -/
structure Msg where
  id : String
  channelId : String
  userId : String
  username : String
  timestamp : String
  type : String
  content : String
  fileName : Option String
  replyTo : Option String
  edited : Bool
  deleted : Bool
  pinned : Bool
  pinnedAt : Option String
  reactions : List (String × List String)
  hiddenPreviews : List String
deriving DecidableEq, Repr

/-- Backward compatibility mapping applied by getMessages: a message without a
channelId is assigned to the channel general. -/
def normalizeMsg (m : Msg) : Msg :=
  if m.channelId = "" then { m with channelId := "general" } else m

/-- State of the messages.json file: missing, unreadable or invalid JSON, or a
well-formed array of raw message records. -/
inductive FileState where
  | missing
  | corrupt
  | stored (raw : List Msg)
deriving DecidableEq, Repr

/-- getMessages: read the file, returning the empty list when the file is
missing or any error occurs, and default channelId to general otherwise. -/
def getMessagesF : FileState → List Msg
  | .missing => []
  | .corrupt => []
  | .stored raw => raw.map normalizeMsg

/-- saveAllMessages: overwrite the file with the given array; a throwing write
is caught and logged, leaving the previous file contents in place. -/
def saveAllMessagesF (f : FileState) (msgs : List Msg) (writeOk : Bool) : FileState :=
  if writeOk then .stored msgs else f

/-- The REACTION branch body: toggle userId inside reactions[emoji], creating
the key when absent, removing the user when present and pruning the key when
its array becomes empty. -/
def toggleReaction : List (String × List String) → String → String → List (String × List String)
  | [], e, u => [(e, [u])]
  | (k, us) :: rest, e, u =>
    if k = e then
      if u ∈ us then
        if (us.erase u).isEmpty then rest else (k, us.erase u) :: rest
      else (k, us ++ [u]) :: rest
    else (k, us) :: toggleReaction rest e u

/-- The user array stored under one emoji key (empty when the key is absent):
JavaScript object lookup by key. -/
def reactAt : List (String × List String) → String → List String
  | [], _ => []
  | (k, us) :: rest, e => if k = e then us else reactAt rest e

/-- New Message branch: default timestamp to the server clock when the draft
carries none, default reactions, hiddenPreviews, pinned, and channelId. -/
def createMessage (draft : Msg) (now : String) : Msg :=
  { draft with
    timestamp := if draft.timestamp = "" then now else draft.timestamp
    channelId := if draft.channelId = "" then "general" else draft.channelId }

/-- DELETE branch tombstone transformation. -/
def deleteMark (m : Msg) : Msg :=
  { m with deleted := true, content := "Message deleted", type := "text",
           pinned := false, pinnedAt := none }

/-- PIN branch transformation: flip pinned, stamping or clearing pinnedAt. -/
def pinApply (now : String) (m : Msg) : Msg :=
  if m.pinned then { m with pinned := false, pinnedAt := none }
  else { m with pinned := true, pinnedAt := some now }

/-- REACTION branch transformation on one message. -/
def reactApply (m : Msg) (e u : String) : Msg :=
  { m with reactions := toggleReaction m.reactions e u }

/-- An EDIT payload: the parsed JSON object sent by the client.  A key that is
absent from the wire object (JSON.stringify drops undefined values) is none. -/
structure MsgPatch where
  id : String
  channelId : Option String
  userId : Option String
  username : Option String
  timestamp : Option String
  type : Option String
  content : Option String
  fileName : Option String
  replyTo : Option String
  edited : Option Bool
  deleted : Option Bool
  pinned : Option Bool
  pinnedAt : Option String
  reactions : Option (List (String × List String))
  hiddenPreviews : Option (List String)
deriving DecidableEq, Repr

/-- JavaScript object spread of the payload over the old record. -/
def mergePatch (old : Msg) (p : MsgPatch) : Msg :=
  { id := p.id
    channelId := p.channelId.getD old.channelId
    userId := p.userId.getD old.userId
    username := p.username.getD old.username
    timestamp := p.timestamp.getD old.timestamp
    type := p.type.getD old.type
    content := p.content.getD old.content
    fileName := p.fileName <|> old.fileName
    replyTo := p.replyTo <|> old.replyTo
    edited := p.edited.getD old.edited
    deleted := p.deleted.getD old.deleted
    pinned := p.pinned.getD old.pinned
    pinnedAt := p.pinnedAt <|> old.pinnedAt
    reactions := p.reactions.getD old.reactions
    hiddenPreviews := p.hiddenPreviews.getD old.hiddenPreviews }

/-- EDIT branch transformation: spread the payload over the old record, then
restore reactions, pinned, pinnedAt, and channelId from the old record. -/
def editApply (old : Msg) (p : MsgPatch) : Msg :=
  { mergePatch old p with
    reactions := old.reactions
    pinned := old.pinned
    pinnedAt := old.pinnedAt
    channelId := if old.channelId = "" then "general" else old.channelId }

/-- The EDIT payload constructed by ChatService.editMessage: the client's full
copy of the message with content replaced and edited set to true. -/
def clientEditPayload (orig : Msg) (newContent : String) : MsgPatch :=
  { id := orig.id
    channelId := some orig.channelId
    userId := some orig.userId
    username := some orig.username
    timestamp := some orig.timestamp
    type := some orig.type
    content := some newContent
    fileName := orig.fileName
    replyTo := orig.replyTo
    edited := some true
    deleted := some orig.deleted
    pinned := some orig.pinned
    pinnedAt := orig.pinnedAt
    reactions := some orig.reactions
    hiddenPreviews := some orig.hiddenPreviews }

/-- findIndex followed by an in-place update of that element: returns the new
array and the updated element, or none when the id is absent. -/
def updateFirst (mid : String) (f : Msg → Msg) : List Msg → Option (List Msg × Msg)
  | [] => none
  | m :: rest =>
    if m.id = mid then some (f m :: rest, f m)
    else
      match updateFirst mid f rest with
      | none => none
      | some (rest2, u) => some (m :: rest2, u)

/-- First stored message with the given id, as the server's findIndex sees it. -/
def findById (msgs : List Msg) (mid : String) : Option Msg :=
  msgs.find? (fun m => m.id = mid)

/-- The inbound WebSocket actions that touch the message store. -/
inductive WsAction where
  | newMsg (draft : Msg)
  | editMsg (p : MsgPatch)
  | deleteMsg (id : String)
  | pinMsg (messageId : String)
  | reactMsg (messageId : String) (emoji : String) (userId : String)
deriving DecidableEq, Repr

/-- The outbound events fanned out to every connection. -/
inductive WireEvent where
  | newMessage (m : Msg)
  | updateMessage (m : Msg)
deriving DecidableEq, Repr

/-- Result of one pass through the ws message handler: the handler's final
in-memory array, the broadcast it decided on, and whether saveAllMessages was
invoked. -/
structure HandleResult where
  messages : List Msg
  broadcast : Option WireEvent
  saved : Bool
deriving DecidableEq, Repr

/-- Common shape of the EDIT, DELETE, PIN and REACTION branches: find the
target by id, transform it in place, save and broadcast the updated record;
when the id is unknown, do nothing at all. -/
def mutateById (msgs : List Msg) (mid : String) (f : Msg → Msg) : HandleResult :=
  match updateFirst mid f msgs with
  | none => ⟨msgs, none, false⟩
  | some (msgs2, u) => ⟨msgs2, some (.updateMessage u), true⟩

/-- One pass of the ws message handler over the in-memory array it read. -/
def wsHandle (msgs : List Msg) (a : WsAction) (now : String) : HandleResult :=
  match a with
  | .newMsg d =>
    ⟨msgs ++ [createMessage d now], some (.newMessage (createMessage d now)), true⟩
  | .editMsg p => mutateById msgs p.id (fun old => editApply old p)
  | .deleteMsg i => mutateById msgs i deleteMark
  | .pinMsg mid => mutateById msgs mid (pinApply now)
  | .reactMsg mid e u => mutateById msgs mid (fun m => reactApply m e u)

/-- Full handler step at the file level: read messages.json, run the branch,
and if the branch saved, attempt the durable write (which may fail and be
swallowed).  Returns the resulting file state and the broadcast event. -/
def wsStep (f : FileState) (a : WsAction) (now : String) (writeOk : Bool) :
    FileState × Option WireEvent :=
  let r := wsHandle (getMessagesF f) a now
  (if r.saved then saveAllMessagesF f r.messages writeOk else f, r.broadcast)

/-- Target message id of a mutating action (none for message creation). -/
def actionTarget : WsAction → Option String
  | .newMsg _ => none
  | .editMsg p => some p.id
  | .deleteMsg i => some i
  | .pinMsg i => some i
  | .reactMsg i _ _ => some i

/-- Query parameters of GET /messages.  none encodes an absent (or falsy)
query-string value. -/
structure MsgQuery where
  limit : Option Nat
  before : Option String
  after : Option String
  around : Option String
  channelId : Option String
  q : Option String
deriving DecidableEq, Repr

/-- parseInt(req.query.limit) || 100. -/
def effLimit : Option Nat → Nat
  | none => 100
  | some n => if n = 0 then 100 else n

/-- slice(-n): the last n elements. -/
def takeLast (n : Nat) (l : List Msg) : List Msg := l.drop (l.length - n)

/-- Channel filter: applied only when channelId is present and not the
wildcard all. -/
def filterChannel (cid : Option String) (msgs : List Msg) : List Msg :=
  match cid with
  | none => msgs
  | some c => if c = "all" then msgs else msgs.filter (fun m => m.channelId = c)

/-- Search filter: case-insensitive substring match over content and author. -/
def searchFilter (q : Option String) (msgs : List Msg) : List Msg :=
  match q with
  | none => msgs
  | some qq =>
    let ql := lowerStr qq
    msgs.filter (fun m => jsIncludes (lowerStr m.content) ql || jsIncludes (lowerStr m.username) ql)

/-- GET /messages: channel filter, search filter, then one of the mutually
exclusive pagination strategies around / before / after / latest. -/
def getMessagesEndpoint (msgs : List Msg) (query : MsgQuery) : List Msg :=
  let ms := searchFilter query.q (filterChannel query.channelId msgs)
  let limit := effLimit query.limit
  match query.around with
  | some aid =>
    match ms.findIdx? (fun m => m.id = aid) with
    | none => takeLast limit ms
    | some i =>
      let half := limit / 2
      let start := i - half
      let stop := min ms.length (i + half + 1)
      (ms.drop start).take (stop - start)
  | none =>
    match query.before with
    | some b => takeLast limit (ms.filter (fun m => jsLt m.timestamp b))
    | none =>
      match query.after with
      | some a => (ms.filter (fun m => jsLt a m.timestamp)).take limit
      | none => takeLast limit ms

/-- A channel record from channels.json. -/
structure Channel where
  id : String
  name : String
  description : String
  createdAt : String
  order : Int
deriving DecidableEq, Repr

/-- getChannels sorts by order; JavaScript Array.prototype.sort is a stable
sort, embedded here as insertion sort by the same comparator. -/
def sortChannels (cs : List Channel) : List Channel :=
  cs.insertionSort (fun a b => a.order ≤ b.order)

/-- POST /channels: reject a missing name or a case-insensitive duplicate,
otherwise append a channel whose order is the current channel count. -/
def createChannel (file : List Channel) (cid name description now : String) :
    Option (List Channel) :=
  let cs := sortChannels file
  if name = "" then none
  else if cs.any (fun c => lowerStr c.name = lowerStr name) then none
  else some (cs ++ [⟨cid, name, description, now, Int.ofNat cs.length⟩])

/-- In-place update of the first channel with the given id. -/
def updateFirstChan (cid : String) (f : Channel → Channel) :
    List Channel → Option (List Channel)
  | [] => none
  | c :: rest =>
    if c.id = cid then some (f c :: rest)
    else (updateFirstChan cid f rest).map (fun l => c :: l)

/-- PUT /channels/:id: rename and/or reorder; a truthy name replaces the name,
a present order replaces the order, with no uniqueness check on either. -/
def updateChannel (file : List Channel) (cid : String)
    (newName : Option String) (newOrder : Option Int) : Option (List Channel) :=
  updateFirstChan cid
    (fun c =>
      { c with
        name := match newName with
          | some n => if n = "" then c.name else n
          | none => c.name
        order := newOrder.getD c.order })
    (sortChannels file)

/-- The channels.json contents created on first start. -/
def initialChannels (t0 : String) : List Channel :=
  [⟨"general", "general", "The lobby", t0, 0⟩]

/-- Channel-file states reachable through the channel endpoints. -/
inductive ChanReachable : List Channel → Prop where
  | init (t0 : String) : ChanReachable (initialChannels t0)
  | create (cs cs2 : List Channel) (cid name description now : String) :
      ChanReachable cs → createChannel cs cid name description now = some cs2 →
      ChanReachable cs2
  | update (cs cs2 : List Channel) (cid : String) (n : Option String) (o : Option Int) :
      ChanReachable cs → updateChannel cs cid n o = some cs2 → ChanReachable cs2

/-- Channel-file states reachable through channel creation alone. -/
inductive ChanReachableCreate : List Channel → Prop where
  | init (t0 : String) : ChanReachableCreate (initialChannels t0)
  | create (cs cs2 : List Channel) (cid name description now : String) :
      ChanReachableCreate cs → createChannel cs cid name description now = some cs2 →
      ChanReachableCreate cs2

/-- Committing a sequence of new-message actions, each with its server clock. -/
def commitSeq (msgs : List Msg) : List (Msg × String) → List Msg
  | [] => msgs
  | (d, now) :: rest => commitSeq (wsHandle msgs (.newMsg d) now).messages rest

/-! ### Basic lemmas about the embedded helpers -/

theorem strLtB_irrefl (l : List Char) : strLtB l l = false := by
  induction l with
  | nil => rfl
  | cons a as ih => simp [strLtB, ih]

theorem strLtB_asymm : ∀ {l₁ l₂ : List Char}, strLtB l₁ l₂ = true → strLtB l₂ l₁ = false
  | [], [], h => by simp [strLtB] at h
  | [], _ :: _, _ => rfl
  | _ :: _, [], h => by simp [strLtB] at h
  | a :: as, b :: bs, h => by
    simp only [strLtB] at h ⊢
    rcases Nat.lt_trichotomy a.toNat b.toNat with hab | hab | hab
    · rw [if_neg (Nat.lt_asymm hab), if_pos hab]
    · rw [if_neg (by omega), if_neg (by omega)] at h ⊢
      exact strLtB_asymm h
    · rw [if_pos hab, if_neg (Nat.lt_asymm hab)] at h
      exact absurd h (by simp)

theorem jsLt_irrefl (s : String) : jsLt s s = false := strLtB_irrefl _

theorem jsLt_asymm {a b : String} (h : jsLt a b = true) : jsLt b a = false :=
  strLtB_asymm h

theorem takeLast_of_le {l : List Msg} {n : Nat} (h : l.length ≤ n) : takeLast n l = l := by
  simp [takeLast, Nat.sub_eq_zero_of_le h]

theorem length_takeLast (n : Nat) (l : List Msg) : (takeLast n l).length ≤ n := by
  simp only [takeLast, List.length_drop]
  omega

theorem updateFirst_eq_none {mid : String} {g : Msg → Msg} :
    ∀ {msgs : List Msg}, (∀ m ∈ msgs, m.id ≠ mid) → updateFirst mid g msgs = none := by
  intro msgs h
  induction msgs with
  | nil => rfl
  | cons m rest ih =>
    have h1 : ¬ m.id = mid := h m (by simp)
    have h2 := ih (fun x hx => h x (by simp [hx]))
    simp [updateFirst, h1, h2]

theorem mutateById_unknown (msgs : List Msg) (mid : String) (g : Msg → Msg)
    (h : ∀ m ∈ msgs, m.id ≠ mid) : mutateById msgs mid g = ⟨msgs, none, false⟩ := by
  simp [mutateById, updateFirst_eq_none h]

theorem found_decomp : ∀ {msgs : List Msg} {mid : String} {m : Msg},
    findById msgs mid = some m →
    ∃ pre post, msgs = pre ++ m :: post ∧ (∀ x ∈ pre, x.id ≠ mid) ∧ m.id = mid := by
  intro msgs mid m h
  induction msgs with
  | nil => simp [findById] at h
  | cons x rest ih =>
    by_cases hx : x.id = mid
    · have hxm : x = m := by
        simpa [findById, List.find?, hx] using h
      exact ⟨[], rest, by simp [hxm], by simp, hxm ▸ hx⟩
    · have h' : findById rest mid = some m := by
        simpa [findById, List.find?, hx] using h
      obtain ⟨pre, post, heq, hpre, hm⟩ := ih h'
      exact ⟨x :: pre, post, by simp [heq], by
        intro y hy
        rcases List.mem_cons.mp hy with rfl | hy2
        · exact hx
        · exact hpre y hy2, hm⟩

theorem updateFirst_append_cons (g : Msg → Msg) (mid : String)
    (pre post : List Msg) (m : Msg) (hpre : ∀ x ∈ pre, x.id ≠ mid) (hm : m.id = mid) :
    updateFirst mid g (pre ++ m :: post) = some (pre ++ g m :: post, g m) := by
  induction pre with
  | nil => simp [updateFirst, hm]
  | cons x xs ih =>
    have hx : ¬ x.id = mid := hpre x (by simp)
    have h2 := ih (fun y hy => hpre y (by simp [hy]))
    simp [updateFirst, hx, h2]

theorem findById_append_cons (pre post : List Msg) (m : Msg) (mid : String)
    (hpre : ∀ x ∈ pre, x.id ≠ mid) (hm : m.id = mid) :
    findById (pre ++ m :: post) mid = some m := by
  have h1 : List.find? (fun x => x.id = mid) pre = none :=
    List.find?_eq_none.mpr (by intro x hx; simpa using hpre x hx)
  simp [findById, List.find?_append, h1, List.find?, hm]

/-! ### C2: persistence failure is swallowed, the event is still broadcast -/

/-- A minimal client message draft. -/
def sampleDraft : Msg :=
  { id := "m1", channelId := "", userId := "u1", username := "alice", timestamp := "",
    type := "text", content := "hi", fileName := none, replyTo := none, edited := false,
    deleted := false, pinned := false, pinnedAt := none, reactions := [],
    hiddenPreviews := [] }

/-- C2: contrary to the claim, when the durable write fails the handler still
treats the new-message mutation as committed and broadcasts NEW_MESSAGE,
while messages.json is left holding the old state: the broadcast event does
not correspond to durably stored state. -/
theorem failed_write_still_broadcasts :
    wsStep (.stored []) (.newMsg sampleDraft) "2024-01-01T00:00:00.000Z" false
      = (.stored [],
         some (.newMessage (createMessage sampleDraft "2024-01-01T00:00:00.000Z"))) := by
  decide

/-! ### C9: mutations against unknown ids are dropped silently -/

/-- C9: a mutating action (edit, delete, pin, reaction) whose target id is not
in the store leaves the file untouched, modifies no message in the handler's
in-memory array, calls no save, and broadcasts nothing. -/
theorem mutation_unknown_id_dropped (f : FileState) (a : WsAction) (now : String)
    (writeOk : Bool) (mid : String) (hact : actionTarget a = some mid)
    (hmiss : ∀ m ∈ getMessagesF f, m.id ≠ mid) :
    wsStep f a now writeOk = (f, none) ∧
    (wsHandle (getMessagesF f) a now).messages = getMessagesF f ∧
    (wsHandle (getMessagesF f) a now).saved = false := by
  cases a with
  | newMsg d => simp [actionTarget] at hact
  | editMsg p =>
    have hp : p.id = mid := by simpa [actionTarget] using hact
    subst hp
    simp [wsStep, wsHandle, mutateById_unknown _ _ _ hmiss]
  | deleteMsg i =>
    have hp : i = mid := by simpa [actionTarget] using hact
    subst hp
    simp [wsStep, wsHandle, mutateById_unknown _ _ _ hmiss]
  | pinMsg i =>
    have hp : i = mid := by simpa [actionTarget] using hact
    subst hp
    simp [wsStep, wsHandle, mutateById_unknown _ _ _ hmiss]
  | reactMsg i e u =>
    have hp : i = mid := by simpa [actionTarget] using hact
    subst hp
    simp [wsStep, wsHandle, mutateById_unknown _ _ _ hmiss]

/-- Witness for C9 at a concrete store and a concrete stale delete. -/
theorem mutation_unknown_id_dropped_witness :
    actionTarget (.deleteMsg "ghost") = some "ghost" ∧
    (∀ m ∈ getMessagesF (.stored [sampleDraft]), m.id ≠ "ghost") ∧
    (wsStep (.stored [sampleDraft]) (.deleteMsg "ghost") "t1" true
       = (.stored [sampleDraft], none) ∧
     (wsHandle (getMessagesF (.stored [sampleDraft])) (.deleteMsg "ghost") "t1").messages
       = getMessagesF (.stored [sampleDraft]) ∧
     (wsHandle (getMessagesF (.stored [sampleDraft])) (.deleteMsg "ghost") "t1").saved
       = false) :=
  ⟨by decide, by decide,
   mutation_unknown_id_dropped (.stored [sampleDraft]) (.deleteMsg "ghost") "t1" true
     "ghost" (by decide) (by decide)⟩

/-! ### C10: a missing or corrupt messages file behaves as an empty store -/

/-- C10: when messages.json is missing, unreadable or invalid JSON, getMessages
returns the empty list, so every query behaves as on an empty store, and the
next successful mutation (a message creation) persists exactly the state
derived from that empty view, replacing the file contents. -/
theorem corrupt_store_behaves_empty (f : FileState)
    (hf : f = FileState.missing ∨ f = FileState.corrupt)
    (query : MsgQuery) (d : Msg) (now : String) :
    getMessagesF f = [] ∧
    getMessagesEndpoint (getMessagesF f) query = getMessagesEndpoint [] query ∧
    wsStep f (.newMsg d) now true =
      (FileState.stored [createMessage d now],
       some (.newMessage (createMessage d now))) := by
  have h0 : getMessagesF f = [] := by rcases hf with rfl | rfl <;> rfl
  refine ⟨h0, by rw [h0], ?_⟩
  rcases hf with rfl | rfl <;>
    simp [wsStep, wsHandle, getMessagesF, saveAllMessagesF]

/-- Witness for C10 on the corrupt file state. -/
theorem corrupt_store_behaves_empty_witness :
    (FileState.corrupt = FileState.missing ∨ FileState.corrupt = FileState.corrupt) ∧
    (getMessagesF .corrupt = [] ∧
     getMessagesEndpoint (getMessagesF .corrupt)
         ⟨some 5, none, none, none, some "general", none⟩
       = getMessagesEndpoint [] ⟨some 5, none, none, none, some "general", none⟩ ∧
     wsStep .corrupt (.newMsg sampleDraft) "t1" true =
       (FileState.stored [createMessage sampleDraft "t1"],
        some (.newMessage (createMessage sampleDraft "t1")))) :=
  ⟨Or.inr rfl,
   corrupt_store_behaves_empty .corrupt (Or.inr rfl)
     ⟨some 5, none, none, none, some "general", none⟩ sampleDraft "t1"⟩

/-! ### C6: delete is idempotent and produces the documented tombstone -/

theorem deleteMark_idem (m : Msg) : deleteMark (deleteMark m) = deleteMark m := rfl

theorem deleteMark_id (m : Msg) : (deleteMark m).id = m.id := rfl

/-- C6: deleting an existing message twice yields the same final array as
deleting it once, and the stored tombstone carries the fixed sentinel content,
type reset to text, pinned forced false, and the reactions of the original
message unchanged. -/
theorem delete_idempotent_tombstone (msgs : List Msg) (mid now : String) (m : Msg)
    (h : findById msgs mid = some m) :
    (wsHandle (wsHandle msgs (.deleteMsg mid) now).messages (.deleteMsg mid) now).messages
        = (wsHandle msgs (.deleteMsg mid) now).messages ∧
    findById (wsHandle msgs (.deleteMsg mid) now).messages mid = some (deleteMark m) ∧
    (deleteMark m).content = "Message deleted" ∧ (deleteMark m).type = "text" ∧
    (deleteMark m).pinned = false ∧ (deleteMark m).reactions = m.reactions := by
  obtain ⟨pre, post, rfl, hpre, hm⟩ := found_decomp h
  have h1 : wsHandle (pre ++ m :: post) (.deleteMsg mid) now
      = ⟨pre ++ deleteMark m :: post, some (.updateMessage (deleteMark m)), true⟩ := by
    simp [wsHandle, mutateById, updateFirst_append_cons deleteMark mid pre post m hpre hm]
  have h2 : wsHandle (pre ++ deleteMark m :: post) (.deleteMsg mid) now
      = ⟨pre ++ deleteMark (deleteMark m) :: post,
         some (.updateMessage (deleteMark (deleteMark m))), true⟩ := by
    simp [wsHandle, mutateById,
      updateFirst_append_cons deleteMark mid pre post (deleteMark m) hpre
        (by rw [deleteMark_id]; exact hm)]
  refine ⟨?_, ?_, rfl, rfl, rfl, rfl⟩
  · rw [h1]
    simp only [h2, deleteMark_idem]
  · rw [h1]
    exact findById_append_cons pre post (deleteMark m) mid hpre
      (by rw [deleteMark_id]; exact hm)

/-- A concrete pinned, reacted-to message used by several witnesses. -/
def richMsg : Msg :=
  { id := "m7", channelId := "general", userId := "u1", username := "alice",
    timestamp := "2024-01-01T00:00:00.000Z", type := "text", content := "hello",
    fileName := none, replyTo := none, edited := false, deleted := false,
    pinned := true, pinnedAt := some "2024-01-02T00:00:00.000Z",
    reactions := [("thumbsup", ["u1"])], hiddenPreviews := [] }

/-- Witness for C6 on a concrete two-message store. -/
theorem delete_idempotent_tombstone_witness :
    findById [sampleDraft, richMsg] "m7" = some richMsg ∧
    ((wsHandle (wsHandle [sampleDraft, richMsg] (.deleteMsg "m7") "t9").messages
        (.deleteMsg "m7") "t9").messages
       = (wsHandle [sampleDraft, richMsg] (.deleteMsg "m7") "t9").messages ∧
     findById (wsHandle [sampleDraft, richMsg] (.deleteMsg "m7") "t9").messages "m7"
       = some (deleteMark richMsg) ∧
     (deleteMark richMsg).content = "Message deleted" ∧
     (deleteMark richMsg).type = "text" ∧
     (deleteMark richMsg).pinned = false ∧
     (deleteMark richMsg).reactions = richMsg.reactions) :=
  ⟨by decide,
   delete_idempotent_tombstone [sampleDraft, richMsg] "m7" "t9" richMsg (by decide)⟩

/-! ### C5: an edit only touches content and the edited flag -/

theorem editApply_client (orig : Msg) (c : String) (hch : orig.channelId ≠ "") :
    editApply orig (clientEditPayload orig c) = { orig with content := c, edited := true } := by
  cases hf : orig.fileName <;> cases hr : orig.replyTo <;> cases hp : orig.pinnedAt <;>
    simp [editApply, mergePatch, clientEditPayload, hch, hf, hr, hp]

/-- C5: the EditMessage operation (the client edit payload processed by the
server EDIT branch) applied to a stored message rewrites exactly that message
to a copy with the new content and edited set to true: reactions, pinned,
pinnedAt, channelId and every other stored field of every message are
unchanged. -/
theorem edit_changes_only_content (msgs : List Msg) (orig : Msg) (c now : String)
    (h : findById msgs orig.id = some orig) (hch : orig.channelId ≠ "") :
    wsHandle msgs (.editMsg (clientEditPayload orig c)) now
      = mutateById msgs orig.id (fun x => { x with content := c, edited := true }) := by
  obtain ⟨pre, post, rfl, hpre, hm⟩ := found_decomp h
  have h1 : wsHandle (pre ++ orig :: post) (.editMsg (clientEditPayload orig c)) now
      = mutateById (pre ++ orig :: post) orig.id
          (fun old => editApply old (clientEditPayload orig c)) := rfl
  rw [h1, mutateById, mutateById,
    updateFirst_append_cons _ orig.id pre post orig hpre hm,
    updateFirst_append_cons _ orig.id pre post orig hpre hm,
    editApply_client orig c hch]

/-- Witness for C5: editing a pinned, reacted-to stored message changes only
content and the edited flag. -/
theorem edit_changes_only_content_witness :
    findById [sampleDraft, richMsg] richMsg.id = some richMsg ∧
    richMsg.channelId ≠ "" ∧
    wsHandle [sampleDraft, richMsg] (.editMsg (clientEditPayload richMsg "revised")) "t9"
      = mutateById [sampleDraft, richMsg] richMsg.id
          (fun x => { x with content := "revised", edited := true }) :=
  ⟨by decide, by decide,
   edit_changes_only_content [sampleDraft, richMsg] richMsg "revised" "t9"
     (by decide) (by decide)⟩

/-! ### C1: timestamp assignment and Latest ordering -/

theorem commitSeq_eq : ∀ (l : List (Msg × String)) (msgs : List Msg),
    commitSeq msgs l = msgs ++ l.map (fun p => createMessage p.1 p.2)
  | [], msgs => by simp [commitSeq]
  | (d, now) :: rest, msgs => by
    simp [commitSeq, wsHandle, commitSeq_eq rest]

/-- A draft with a client-chosen timestamp, as usable by C1's counterexample. -/
def tsDraft (i ts : String) : Msg :=
  { id := i, channelId := "", userId := "u1", username := "alice", timestamp := ts,
    type := "text", content := "x", fileName := none, replyTo := none, edited := false,
    deleted := false, pinned := false, pinnedAt := none, reactions := [],
    hiddenPreviews := [] }

/-- C1 counterexample: the New Message branch only assigns the server clock
when the draft carries no timestamp; a client-supplied timestamp is stored
verbatim, so the first stored timestamp is the client's b rather than the
server clock t1, and the two commits are stored with strictly decreasing
timestamps. -/
theorem client_timestamp_trusted_cex :
    (commitSeq [] [(tsDraft "m1" "b", "t1"), (tsDraft "m2" "a", "t2")]).map
        (fun m => m.timestamp) = ["b", "a"] ∧
    ("b" : String) ≠ "t1" ∧ jsLt "a" "b" = true := by
  decide

/-- C1 (amended): the store assigns the server clock as timestamp exactly when
the client draft omits one; for any sequence of timestampless drafts on the
default channel committed at non-decreasing server clock values, the stored
timestamps are the clock values in commit order, hence non-decreasing, and a
Latest query (no cursor) with limit at least the sequence length returns the
stored messages in that same commit order. -/
theorem create_order_and_latest (l : List (Msg × String)) (limit : Nat)
    (hts : ∀ p ∈ l, (p.1 : Msg).timestamp = "")
    (hch : ∀ p ∈ l, (p.1 : Msg).channelId = "")
    (hmono : (l.map Prod.snd).Chain' (fun a b => jsLt b a = false))
    (hlim : l.length ≤ limit) :
    (commitSeq [] l).map (fun m => m.timestamp) = l.map Prod.snd ∧
    ((commitSeq [] l).map (fun m => m.timestamp)).Chain' (fun a b => jsLt b a = false) ∧
    getMessagesEndpoint (commitSeq [] l)
        ⟨some limit, none, none, none, some "general", none⟩
      = commitSeq [] l := by
  have hmain : (commitSeq [] l).map (fun m => m.timestamp) = l.map Prod.snd := by
    rw [commitSeq_eq, List.nil_append, List.map_map]
    refine List.map_congr_left ?_
    intro p hp
    simp [Function.comp, createMessage, hts p hp]
  refine ⟨hmain, by rw [hmain]; exact hmono, ?_⟩
  have hchan : ∀ m ∈ commitSeq [] l, m.channelId = "general" := by
    rw [commitSeq_eq, List.nil_append]
    intro m hm
    obtain ⟨p, hp, rfl⟩ := List.mem_map.mp hm
    simp [createMessage, hch p hp]
  have hlen : (commitSeq [] l).length = l.length := by
    rw [commitSeq_eq, List.nil_append, List.length_map]
  have hfc : filterChannel (some "general") (commitSeq [] l) = commitSeq [] l := by
    have : ("general" : String) = "all" ↔ False := by simp
    simp only [filterChannel, if_neg (by decide : ¬ ("general" : String) = "all")]
    exact List.filter_eq_self.mpr (fun m hm => by simp [hchan m hm])
  show getMessagesEndpoint _ _ = _
  unfold getMessagesEndpoint
  simp only [searchFilter, hfc]
  by_cases h0 : limit = 0
  · have : l = [] := List.length_eq_zero.mp (by omega)
    subst this
    simp [commitSeq, takeLast, effLimit, h0]
  · simp only [effLimit, if_neg h0]
    exact takeLast_of_le (by omega)

/-- Witness for C1's amended ordering theorem on two timestampless drafts. -/
theorem create_order_and_latest_witness :
    (∀ p ∈ [(tsDraft "m1" "", "t1"), (tsDraft "m2" "", "t2")], (p.1 : Msg).timestamp = "") ∧
    (∀ p ∈ [(tsDraft "m1" "", "t1"), (tsDraft "m2" "", "t2")], (p.1 : Msg).channelId = "") ∧
    (([(tsDraft "m1" "", "t1"), (tsDraft "m2" "", "t2")].map Prod.snd).Chain'
        (fun a b => jsLt b a = false)) ∧
    ([(tsDraft "m1" "", "t1"), (tsDraft "m2" "", "t2")].length ≤ 5) ∧
    ((commitSeq [] [(tsDraft "m1" "", "t1"), (tsDraft "m2" "", "t2")]).map
        (fun m => m.timestamp) = [(tsDraft "m1" "", "t1"), (tsDraft "m2" "", "t2")].map Prod.snd ∧
     ((commitSeq [] [(tsDraft "m1" "", "t1"), (tsDraft "m2" "", "t2")]).map
        (fun m => m.timestamp)).Chain' (fun a b => jsLt b a = false) ∧
     getMessagesEndpoint (commitSeq [] [(tsDraft "m1" "", "t1"), (tsDraft "m2" "", "t2")])
        ⟨some 5, none, none, none, some "general", none⟩
       = commitSeq [] [(tsDraft "m1" "", "t1"), (tsDraft "m2" "", "t2")]) :=
  ⟨by decide, by decide,
   by
     simp only [List.map_cons, List.map_nil, List.chain'_cons, List.chain'_singleton,
       and_true]
     decide,
   by decide,
   create_order_and_latest [(tsDraft "m1" "", "t1"), (tsDraft "m2" "", "t2")] 5
     (by decide) (by decide)
     (by
       simp only [List.map_cons, List.map_nil, List.chain'_cons, List.chain'_singleton,
         and_true]
       decide)
     (by decide)⟩

/-! ### C3: cursor partition of a channel -/

theorem sorted_filter_lt (A B : List Msg) (x : Msg)
    (hsorted : (A ++ x :: B).Pairwise (fun a b => jsLt a.timestamp b.timestamp = true)) :
    (A ++ x :: B).filter (fun m => jsLt m.timestamp x.timestamp) = A ∧
    (A ++ x :: B).filter (fun m => jsLt x.timestamp m.timestamp) = B := by
  rw [List.pairwise_append] at hsorted
  obtain ⟨hA, hxB, hAxB⟩ := hsorted
  rw [List.pairwise_cons] at hxB
  obtain ⟨hxB1, hB⟩ := hxB
  constructor
  · rw [List.filter_append]
    have h1 : A.filter (fun m => jsLt m.timestamp x.timestamp) = A :=
      List.filter_eq_self.mpr (fun a ha => hAxB a ha x (List.mem_cons_self _ _))
    have h2 : (x :: B).filter (fun m => jsLt m.timestamp x.timestamp) = [] := by
      refine List.filter_eq_nil_iff.mpr ?_
      intro a ha
      rcases List.mem_cons.mp ha with rfl | ha2
      · simp [jsLt_irrefl]
      · simp [jsLt_asymm (hxB1 a ha2)]
    rw [h1, h2, List.append_nil]
  · rw [List.filter_append]
    have h1 : A.filter (fun m => jsLt x.timestamp m.timestamp) = [] := by
      refine List.filter_eq_nil_iff.mpr ?_
      intro a ha
      simp [jsLt_asymm (hAxB a ha x (List.mem_cons_self _ _))]
    have h2 : (x :: B).filter (fun m => jsLt x.timestamp m.timestamp) = B := by
      rw [List.filter_cons, if_neg (by simp [jsLt_irrefl])]
      exact List.filter_eq_self.mpr (fun a ha => hxB1 a ha)
    rw [h1, h2, List.nil_append]

/-- C3 (amended): for a channel whose stored messages are sorted with strictly
increasing (hence pairwise distinct) timestamps, and a cursor taken from the
message at any position (the sequence splits as A, the cursor message, B),
the Before page (limit at least the channel size), the cursor message, and the
After page concatenate to exactly the full stored sequence: no duplicates and
no gaps. -/
theorem pagination_partition (A B : List Msg) (x : Msg) (c : String) (limit : Nat)
    (hlim : (A ++ x :: B).length ≤ limit)
    (hc : ∀ m ∈ A ++ x :: B, m.channelId = c) (hcall : c ≠ "all")
    (hsorted : (A ++ x :: B).Pairwise (fun a b => jsLt a.timestamp b.timestamp = true)) :
    getMessagesEndpoint (A ++ x :: B)
        ⟨some limit, some x.timestamp, none, none, some c, none⟩
      ++ x ::
        getMessagesEndpoint (A ++ x :: B)
          ⟨some limit, none, some x.timestamp, none, some c, none⟩
      = A ++ x :: B := by
  obtain ⟨hbefore, hafter⟩ := sorted_filter_lt A B x hsorted
  have hfc : filterChannel (some c) (A ++ x :: B) = A ++ x :: B := by
    simp only [filterChannel, if_neg hcall]
    exact List.filter_eq_self.mpr (fun m hm => by simp [hc m hm])
  have hlen : (A ++ x :: B).length = A.length + B.length + 1 := by
    simp [List.length_append]
    omega
  have hlimpos : ¬ limit = 0 := by omega
  unfold getMessagesEndpoint
  simp only [searchFilter, hfc, effLimit, if_neg hlimpos]
  rw [hbefore, hafter, takeLast_of_le (by omega), List.take_of_length_le (by omega)]

/-- Two stored messages sharing one timestamp, for C3's counterexample. -/
def dupA : Msg :=
  { id := "m1", channelId := "general", userId := "u1", username := "alice",
    timestamp := "t", type := "text", content := "a", fileName := none, replyTo := none,
    edited := false, deleted := false, pinned := false, pinnedAt := none,
    reactions := [], hiddenPreviews := [] }

/-- Second message with the same timestamp as dupA. -/
def dupB : Msg := { dupA with id := "m2", content := "b" }

/-- C3 counterexample: with two messages sharing timestamp t, Before(t) and
After(t) are both empty (both use strict comparison), so the union of
Before(t), the message at t, and After(t) has one element and cannot
reconstruct the two-message channel: a gap. -/
theorem pagination_partition_cex :
    getMessagesEndpoint [dupA, dupB] ⟨some 10, some "t", none, none, some "general", none⟩
      = [] ∧
    getMessagesEndpoint [dupA, dupB] ⟨some 10, none, some "t", none, some "general", none⟩
      = [] ∧
    ([dupA, dupB] : List Msg).length = 2 ∧
    (([] : List Msg) ++ dupA :: ([] : List Msg) ≠ [dupA, dupB]) ∧
    (([] : List Msg) ++ dupB :: ([] : List Msg) ≠ [dupA, dupB]) := by
  decide

/-- First, middle and last of three strictly increasing messages for C3. -/
def incM1 : Msg := { dupA with id := "m1", timestamp := "a" }

/-- Middle message of the C3 witness channel. -/
def incM2 : Msg := { dupA with id := "m2", timestamp := "b" }

/-- Last message of the C3 witness channel. -/
def incM3 : Msg := { dupA with id := "m3", timestamp := "c" }

/-- Witness for C3's amended partition theorem at the middle cursor. -/
theorem pagination_partition_witness :
    (([incM1] ++ incM2 :: [incM3]).length ≤ 5) ∧
    (∀ m ∈ [incM1] ++ incM2 :: [incM3], m.channelId = "general") ∧
    ("general" : String) ≠ "all" ∧
    ([incM1] ++ incM2 :: [incM3]).Pairwise
      (fun a b => jsLt a.timestamp b.timestamp = true) ∧
    (getMessagesEndpoint ([incM1] ++ incM2 :: [incM3])
        ⟨some 5, some incM2.timestamp, none, none, some "general", none⟩
      ++ incM2 ::
        getMessagesEndpoint ([incM1] ++ incM2 :: [incM3])
          ⟨some 5, none, some incM2.timestamp, none, some "general", none⟩
      = [incM1] ++ incM2 :: [incM3]) :=
  ⟨by decide, by decide, by decide, by decide,
   pagination_partition [incM1] [incM3] incM2 "general" 5 (by decide) (by decide)
     (by decide) (by decide)⟩

/-! ### C4: shape of the Around query -/

theorem findIdxQ_le {α : Type} (p : α → Bool) :
    ∀ (l : List α) (n i : Nat), List.findIdx? p l n = some i → n ≤ i ∧ i - n < l.length
  | [], n, i, h => by simp [List.findIdx?_nil] at h
  | x :: xs, n, i, h => by
    rw [List.findIdx?_cons] at h
    by_cases hx : p x = true
    · rw [if_pos hx] at h
      have hni : n = i := by simpa using h
      subst hni
      exact ⟨Nat.le_refl n, by simp⟩
    · rw [if_neg hx] at h
      obtain ⟨h1, h2⟩ := findIdxQ_le p xs (n + 1) i h
      exact ⟨by omega, by simp only [List.length_cons]; omega⟩

theorem slice_split {α : Type} (l : List α) (start i stop : Nat)
    (h1 : start ≤ i) (h2 : i ≤ stop) (h3 : i ≤ l.length) :
    (l.drop start).take (stop - start)
      = (l.take i).drop start ++ (l.drop i).take (stop - i) := by
  have hlen : (l.take i).length = i := by rw [List.length_take]; omega
  conv_lhs => rw [← List.take_append_drop i l]
  rw [List.drop_append_eq_append_drop, hlen, Nat.sub_eq_zero_of_le h1, List.drop_zero,
    List.take_append_eq_append_take]
  have hlen2 : ((l.take i).drop start).length = i - start := by
    rw [List.length_drop, hlen]
  rw [hlen2, List.take_of_length_le (by rw [hlen2]; omega)]
  have harith : stop - start - (i - start) = stop - i := by omega
  rw [harith]

/-- C4 (amended): an Around(id) query whose id is found at index i of the
channel returns the slice from i minus floor(limit/2) (clipped at the start)
through i plus floor(limit/2) (clipped at the end): up to floor(limit/2)
messages before the located message, the message itself, and up to
floor(limit/2) messages after it, hence at most 2*floor(limit/2)+1 messages,
which exceeds limit by one when limit is even; when the id is not found the
query returns exactly what a Latest query with the same limit returns. -/
theorem around_query_shape (msgs : List Msg) (c aid : String) (limit : Nat)
    (r : Option Nat) (hl : 0 < limit)
    (hc : ∀ m ∈ msgs, m.channelId = c) (hcall : c ≠ "all")
    (hr : msgs.findIdx? (fun m => m.id = aid) = r) :
    getMessagesEndpoint msgs ⟨some limit, none, none, some aid, some c, none⟩
      = (match r with
         | some i =>
           (msgs.take i).drop (i - limit / 2) ++ (msgs.drop i).take (limit / 2 + 1)
         | none => getMessagesEndpoint msgs ⟨some limit, none, none, none, some c, none⟩) ∧
    (getMessagesEndpoint msgs ⟨some limit, none, none, some aid, some c, none⟩).length
      ≤ 2 * (limit / 2) + 1 := by
  have hfc : filterChannel (some c) msgs = msgs := by
    simp only [filterChannel, if_neg hcall]
    exact List.filter_eq_self.mpr (fun m hm => by simp [hc m hm])
  have hlimpos : ¬ limit = 0 := by omega
  cases r with
  | none =>
    have hmain : getMessagesEndpoint msgs ⟨some limit, none, none, some aid, some c, none⟩
        = takeLast limit msgs := by
      unfold getMessagesEndpoint
      simp only [searchFilter, hfc, hr, effLimit, if_neg hlimpos]
    refine ⟨?_, ?_⟩
    · rw [hmain]
      unfold getMessagesEndpoint
      simp only [searchFilter, hfc, effLimit, if_neg hlimpos]
    · rw [hmain]
      calc (takeLast limit msgs).length ≤ limit := length_takeLast _ _
        _ ≤ 2 * (limit / 2) + 1 := by omega
  | some i =>
    have hi : i < msgs.length := by
      have := findIdxQ_le _ msgs 0 i hr
      omega
    have himin : i ≤ min msgs.length (i + limit / 2 + 1) := by
      exact Nat.le_min.mpr ⟨by omega, by omega⟩
    have hsplit := slice_split msgs (i - limit / 2) i
      (min msgs.length (i + limit / 2 + 1)) (by omega) himin (by omega)
    have hmain : getMessagesEndpoint msgs ⟨some limit, none, none, some aid, some c, none⟩
        = (msgs.take i).drop (i - limit / 2) ++ (msgs.drop i).take (limit / 2 + 1) := by
      unfold getMessagesEndpoint
      simp only [searchFilter, hfc, hr, effLimit, if_neg hlimpos]
      rw [hsplit]
      congr 1
      rw [List.take_eq_take, List.length_drop]
      rcases Nat.le_total msgs.length (i + limit / 2 + 1) with hle | hle
      · rw [Nat.min_eq_left hle]
        omega
      · rw [Nat.min_eq_right hle]
        omega
    refine ⟨hmain, ?_⟩
    rw [hmain]
    simp only [List.length_append, List.length_drop, List.length_take]
    omega

/-- A channel message used in the Around examples. -/
def aMsg (i ts : String) : Msg := { dupA with id := i, timestamp := ts }

/-- The five-message channel of the Around examples. -/
def aroundMsgs : List Msg :=
  [aMsg "m1" "a", aMsg "m2" "b", aMsg "m3" "c", aMsg "m4" "d", aMsg "m5" "e"]

/-- C4 counterexample: Around on the middle of five messages with limit 4
returns floor(4/2) = 2 messages on each side of the located message, five
messages in total, exceeding the requested limit of 4. -/
theorem around_limit_exceeded_cex :
    (getMessagesEndpoint aroundMsgs
        ⟨some 4, none, none, some "m3", some "general", none⟩).length = 5 ∧
    ¬ ((getMessagesEndpoint aroundMsgs
        ⟨some 4, none, none, some "m3", some "general", none⟩).length ≤ 4) := by
  decide

/-- Witness for C4's amended shape theorem at the found middle index. -/
theorem around_query_shape_witness :
    (0 < 4) ∧ (∀ m ∈ aroundMsgs, m.channelId = "general") ∧
    ("general" : String) ≠ "all" ∧
    aroundMsgs.findIdx? (fun m => m.id = "m3") = some 2 ∧
    (getMessagesEndpoint aroundMsgs ⟨some 4, none, none, some "m3", some "general", none⟩
       = (aroundMsgs.take 2).drop (2 - 4 / 2) ++ (aroundMsgs.drop 2).take (4 / 2 + 1) ∧
     (getMessagesEndpoint aroundMsgs
        ⟨some 4, none, none, some "m3", some "general", none⟩).length
       ≤ 2 * (4 / 2) + 1) :=
  ⟨by decide, by decide, by decide, by decide,
   around_query_shape aroundMsgs "general" "m3" 4 (some 2) (by decide) (by decide)
     (by decide) (by decide)⟩

/-! ### C7: reaction toggling is an involution on user sets -/

theorem toggleReaction_not_key :
    ∀ (r : List (String × List String)) (e u : String), (∀ p ∈ r, p.1 ≠ e) →
      toggleReaction r e u = r ++ [(e, [u])]
  | [], _, _, _ => rfl
  | (k, us) :: rest, e, u, h => by
    have hk : ¬ k = e := h (k, us) (List.mem_cons_self _ _)
    simp only [toggleReaction, if_neg hk]
    rw [toggleReaction_not_key rest e u (fun p hp => h p (List.mem_cons_of_mem _ hp))]
    rfl

theorem reactAt_key_absent :
    ∀ (r : List (String × List String)) (e : String), (∀ p ∈ r, p.1 ≠ e) →
      reactAt r e = []
  | [], _, _ => rfl
  | (k, us) :: rest, e, h => by
    have hk : ¬ k = e := h (k, us) (List.mem_cons_self _ _)
    simp only [reactAt, if_neg hk]
    exact reactAt_key_absent rest e (fun p hp => h p (List.mem_cons_of_mem _ hp))

theorem reactAt_append_of_not_key :
    ∀ (r1 r2 : List (String × List String)) (e : String),
      (∀ p ∈ r1, p.1 ≠ e) → reactAt (r1 ++ r2) e = reactAt r2 e
  | [], _, _, _ => rfl
  | (k, us) :: rest, r2, e, h => by
    have hk : ¬ k = e := h (k, us) (List.mem_cons_self _ _)
    simp only [List.cons_append, reactAt, if_neg hk]
    exact reactAt_append_of_not_key rest r2 e (fun p hp => h p (List.mem_cons_of_mem _ hp))

theorem reactAt_append_last_ne (k e2 : String) (x : List String)
    (hne : k ≠ e2) :
    ∀ (r1 : List (String × List String)), reactAt (r1 ++ [(k, x)]) e2 = reactAt r1 e2
  | [] => by simp [reactAt, hne]
  | (k2, us) :: rest => by
    by_cases hk2 : k2 = e2
    · simp [reactAt, hk2]
    · simp only [List.cons_append, reactAt, if_neg hk2]
      exact reactAt_append_last_ne k e2 x hne rest

theorem toggleReaction_no_empty :
    ∀ (r : List (String × List String)) (e u : String),
      (∀ p ∈ r, p.2 ≠ []) → ∀ p ∈ toggleReaction r e u, p.2 ≠ []
  | [], e, u, _, p, hp => by
    simp only [toggleReaction, List.mem_singleton] at hp
    subst hp
    simp
  | (k, us) :: rest, e, u, h, p, hp => by
    have hhead : us ≠ [] := h (k, us) (List.mem_cons_self _ _)
    have htail : ∀ q ∈ rest, q.2 ≠ [] := fun q hq => h q (List.mem_cons_of_mem _ hq)
    by_cases hk : k = e
    · rw [toggleReaction, if_pos hk] at hp
      by_cases hu : u ∈ us
      · rw [if_pos hu] at hp
        by_cases hemp : (us.erase u).isEmpty
        · rw [if_pos hemp] at hp
          exact htail p hp
        · rw [if_neg hemp] at hp
          rcases List.mem_cons.mp hp with rfl | hp2
          · simpa [List.isEmpty_iff] using hemp
          · exact htail p hp2
      · rw [if_neg hu] at hp
        rcases List.mem_cons.mp hp with rfl | hp2
        · simp
        · exact htail p hp2
    · rw [toggleReaction, if_neg hk] at hp
      rcases List.mem_cons.mp hp with rfl | hp2
      · exact hhead
      · exact toggleReaction_no_empty rest e u htail p hp2

theorem toggle_toggle_reactAt :
    ∀ (r : List (String × List String)) (e u e2 v : String),
      (r.map Prod.fst).Nodup → (∀ p ∈ r, (p.2 : List String).Nodup) →
      (v ∈ reactAt (toggleReaction (toggleReaction r e u) e u) e2 ↔ v ∈ reactAt r e2)
  | [], e, u, e2, v, _, _ => by
    by_cases he2 : e = e2 <;>
      simp [toggleReaction, reactAt, he2]
  | (k, us) :: rest, e, u, e2, v, hkeys, hnd => by
    have hkmem : k ∉ rest.map Prod.fst := (List.nodup_cons.mp hkeys).1
    have hkrest : (rest.map Prod.fst).Nodup := (List.nodup_cons.mp hkeys).2
    have hndrest : ∀ p ∈ rest, (p.2 : List String).Nodup :=
      fun p hp => hnd p (List.mem_cons_of_mem _ hp)
    have husnd : us.Nodup := hnd (k, us) (List.mem_cons_self _ _)
    by_cases hk : k = e
    · subst hk
      have hrestne : ∀ p ∈ rest, p.1 ≠ k := by
        intro p hp hpk
        exact hkmem (hpk ▸ List.mem_map_of_mem Prod.fst hp)
      by_cases hu : u ∈ us
      · by_cases hemp : (us.erase u).isEmpty
        · -- first toggle drops the key entirely, second re-creates it as [u]
          rw [toggleReaction, if_pos rfl, if_pos hu, if_pos hemp,
            toggleReaction_not_key rest k u hrestne]
          by_cases he2 : k = e2
          · subst he2
            rw [reactAt_append_of_not_key rest _ k hrestne]
            simp only [reactAt, if_pos rfl]
            have hus : ∀ w, w ∈ us ↔ w = u := by
              intro w
              constructor
              · intro hw
                by_contra hne
                have hmem : w ∈ us.erase u := (husnd.mem_erase_iff).mpr ⟨hne, hw⟩
                rw [List.isEmpty_iff.mp hemp] at hmem
                simp at hmem
              · intro hw
                exact hw ▸ hu
            simp [hus]
          · rw [reactAt_append_last_ne k e2 [u] he2]
            simp [reactAt, if_neg he2]
        · -- first toggle erases u from a still-nonempty array, second appends it back
          have hu2 : u ∉ us.erase u := fun hmem => ((husnd.mem_erase_iff).mp hmem).1 rfl
          rw [toggleReaction, if_pos rfl, if_pos hu, if_neg hemp,
            toggleReaction, if_pos rfl, if_neg hu2]
          by_cases he2 : k = e2
          · subst he2
            simp only [reactAt, if_pos rfl]
            constructor
            · intro hv
              rcases List.mem_append.mp hv with hv1 | hv1
              · exact ((husnd.mem_erase_iff).mp hv1).2
              · rw [List.mem_singleton.mp hv1]
                exact hu
            · intro hv
              by_cases hvu : v = u
              · exact List.mem_append.mpr (Or.inr (by simp [hvu]))
              · exact List.mem_append.mpr (Or.inl ((husnd.mem_erase_iff).mpr ⟨hvu, hv⟩))
          · simp [reactAt, if_neg he2]
      · -- user absent: first toggle appends, second erases exactly the appendage
        have hmemapp : u ∈ us ++ [u] := by simp
        have herase : (us ++ [u]).erase u = us := by
          rw [List.erase_append_right _ hu, List.erase_cons_head, List.append_nil]
        rw [toggleReaction, if_pos rfl, if_neg hu,
          toggleReaction, if_pos rfl, if_pos hmemapp, herase]
        by_cases hemp : us.isEmpty
        · rw [if_pos hemp]
          have husnil : us = [] := List.isEmpty_iff.mp hemp
          subst husnil
          by_cases he2 : k = e2
          · subst he2
            rw [reactAt_key_absent rest k hrestne]
            simp [reactAt]
          · simp [reactAt, if_neg he2]
        · rw [if_neg hemp]
    · -- head key untouched by both toggles
      have hk2 : ¬ k = e := hk
      rw [toggleReaction, if_neg hk2, toggleReaction, if_neg hk2]
      by_cases he2 : k = e2
      · simp [reactAt, he2]
      · simp only [reactAt, if_neg he2]
        exact toggle_toggle_reactAt rest e u e2 v hkrest hndrest

/-- C7: toggling the same reaction twice by the same user restores, for every
emoji, the same set of reacting users as before (the stored array may be
reordered but holds the same members), and after any single toggle no emoji
key of the message maps to an empty user array, provided the message's
reaction state is the kind the store itself produces: unique emoji keys,
duplicate-free user arrays, no empty arrays. -/
theorem reaction_double_toggle (m : Msg) (e u e2 v : String)
    (hkeys : (m.reactions.map Prod.fst).Nodup)
    (hnd : ∀ p ∈ m.reactions, (p.2 : List String).Nodup)
    (hne : ∀ p ∈ m.reactions, p.2 ≠ []) :
    (v ∈ reactAt (reactApply (reactApply m e u) e u).reactions e2
       ↔ v ∈ reactAt m.reactions e2) ∧
    ((reactApply m e u).reactions.all (fun p => !(p.2.isEmpty)) = true) := by
  constructor
  · exact toggle_toggle_reactAt m.reactions e u e2 v hkeys hnd
  · rw [List.all_eq_true]
    intro p hp
    have hne2 := toggleReaction_no_empty m.reactions e u hne p hp
    simpa [List.isEmpty_iff] using hne2

/-- Witness for C7 on a concrete reacted-to message. -/
theorem reaction_double_toggle_witness :
    ((richMsg.reactions.map Prod.fst).Nodup) ∧
    (∀ p ∈ richMsg.reactions, (p.2 : List String).Nodup) ∧
    (∀ p ∈ richMsg.reactions, p.2 ≠ []) ∧
    ((("u1" : String) ∈
        reactAt (reactApply (reactApply richMsg "thumbsup" "u1") "thumbsup" "u1").reactions
          "thumbsup"
       ↔ ("u1" : String) ∈ reactAt richMsg.reactions "thumbsup") ∧
     ((reactApply richMsg "thumbsup" "u1").reactions.all
        (fun p => !(p.2.isEmpty)) = true)) :=
  ⟨by decide, by decide, by decide,
   reaction_double_toggle richMsg "thumbsup" "u1" "thumbsup" "u1"
     (by decide) (by decide) (by decide)⟩

/-! ### C8: channel order uniqueness -/

/-- The default channel as created on first start. -/
def chanGeneral : Channel := ⟨"general", "general", "The lobby", "t0", 0⟩

/-- A second channel as created by POST /channels. -/
def chanX1 : Channel := ⟨"c2", "x", "chan x", "t1", 1⟩

/-- The second channel after a reorder to order 0. -/
def chanX0 : Channel := ⟨"c2", "x", "chan x", "t1", 0⟩

/-- C8 counterexample: starting from the default channel file, create channel
x (order 1), then reorder it to order 0 through PUT /channels/:id; the
endpoint stores the requested order with no uniqueness check, so the reachable
resulting state has two channels with order 0. -/
theorem reorder_breaks_order_uniqueness_cex :
    ChanReachable [chanGeneral, chanX0] ∧
    ¬ (([chanGeneral, chanX0].map (fun c => c.order)).Nodup) := by
  constructor
  · refine ChanReachable.update [chanGeneral, chanX1] [chanGeneral, chanX0]
      "c2" none (some 0) ?_ (by decide)
    exact ChanReachable.create (initialChannels "t0") [chanGeneral, chanX1]
      "c2" "x" "chan x" "t1" (ChanReachable.init "t0") (by decide)
  · decide

/-- C8 (amended): CreateChannel assigns order equal to the current channel
count, so in every state reachable by channel creation alone the orders are a
permutation of 0..n-1 and no two channels share an order; the reorder endpoint
however stores any requested order unchecked, so the uniqueness invariant does
not survive arbitrary reorder operations (see the counterexample). -/
theorem create_only_orders_distinct (cs : List Channel) (h : ChanReachableCreate cs) :
    ((cs.map (fun c => c.order)).Perm ((List.range cs.length).map Int.ofNat)) ∧
    (cs.map (fun c => c.order)).Nodup := by
  have key : (cs.map (fun c => c.order)).Perm ((List.range cs.length).map Int.ofNat) := by
    induction h with
    | init t0 =>
      simp only [initialChannels, List.map_cons, List.map_nil, List.length_cons,
        List.length_nil]
      exact List.Perm.of_eq (by decide)
    | create cs cs2 cid name description now hreach heq ih =>
      unfold createChannel at heq
      by_cases h1 : name = ""
      · rw [if_pos h1] at heq
        exact absurd heq (by simp)
      · rw [if_neg h1] at heq
        by_cases h2 : (sortChannels cs).any (fun c => lowerStr c.name = lowerStr name)
        · rw [if_pos h2] at heq
          exact absurd heq (by simp)
        · rw [if_neg h2] at heq
          have hcs2 : cs2 = sortChannels cs
              ++ [⟨cid, name, description, now, Int.ofNat (sortChannels cs).length⟩] := by
            simpa using heq.symm
          subst hcs2
          have hperm : (sortChannels cs).Perm cs := List.perm_insertionSort _ cs
          have hlen : (sortChannels cs).length = cs.length := hperm.length_eq
          have e1 : (List.range (cs.length + 1)).map Int.ofNat
              = (List.range cs.length).map Int.ofNat ++ [Int.ofNat cs.length] := by
            rw [List.range_succ, List.map_append]
            rfl
          have step1 : ((sortChannels cs).map (fun c => c.order)
                ++ [Int.ofNat cs.length]).Perm
              ((List.range (cs.length + 1)).map Int.ofNat) := by
            rw [e1]
            exact ((hperm.map (fun c => c.order)).trans ih).append_right _
          simpa [hlen] using step1
  refine ⟨key, key.nodup_iff.mpr ?_⟩
  exact (List.nodup_range _).map (fun a b hab => Int.ofNat.inj hab)

/-- Witness for C8's amended create-only invariant after one creation. -/
theorem create_only_orders_distinct_witness :
    ChanReachableCreate [chanGeneral, chanX1] ∧
    ((([chanGeneral, chanX1].map (fun c => c.order)).Perm
        ((List.range ([chanGeneral, chanX1] : List Channel).length).map Int.ofNat)) ∧
     ([chanGeneral, chanX1].map (fun c => c.order)).Nodup) :=
  have hreach : ChanReachableCreate [chanGeneral, chanX1] :=
    ChanReachableCreate.create (initialChannels "t0") [chanGeneral, chanX1]
      "c2" "x" "chan x" "t1" (ChanReachableCreate.init "t0") (by decide)
  ⟨hreach, create_only_orders_distinct [chanGeneral, chanX1] hreach⟩

end FinChat
